import Mathlib

/-
Verification of the go-hashlru two-generation LRU cache (package hlru,
file hashlru.go).  The Go maps are embedded as association lists whose
keys are pairwise distinct in every reachable state; the Go int fields
are embedded as Int.  The eviction callback is embedded by having every
mutating operation additionally return the list of (key, value) pairs
passed to the callback, in invocation order: when the callback is nil the
Go code skips the calls but computes the same final state, so the state
component is the behaviour for both cases and the list component is the
sequence of callback invocations when a callback is set.
-/

set_option maxHeartbeats 1000000
set_option linter.unusedSectionVars false

namespace HLRU

variable {K V : Type} [DecidableEq K]

/-- Association-list embedding of a lookup in a Go map: first entry with
the given key, if any. -/
def mlookup : List (K × V) → K → Option V
  | [], _ => none
  | (a, b) :: rest, k => if a = k then some b else mlookup rest k

/-- Embedding of the Go map assignment m[k] = v: overwrite in place when
the key is present, otherwise add the entry. -/
def massign : List (K × V) → K → V → List (K × V)
  | [], k, v => [(k, v)]
  | (a, b) :: rest, k, v =>
    if a = k then (k, v) :: rest else (a, b) :: massign rest k v

/-- Embedding of the Go delete(m, k): remove every entry with the given
key (in a Go map the key occurs at most once, so this coincides). -/
def mdelete : List (K × V) → K → List (K × V)
  | [], _ => []
  | (a, b) :: rest, k => if a = k then mdelete rest k else (a, b) :: mdelete rest k

/-- The keys of a map, in entry order. -/
def mkeys (m : List (K × V)) : List K :=
  m.map Prod.fst

/-- Every reachable map has pairwise distinct keys. -/
abbrev nodupKeys (m : List (K × V)) : Prop :=
  (mkeys m).Nodup

/-- The HashLRU struct from hashlru.go (the lock and the callback field
are not part of the sequential state; the callback is embedded in the
operation results). -/
structure HashLRU (K V : Type) where
  maxSize : Int
  size : Int
  oldCache : List (K × V)
  newCache : List (K × V)
deriving DecidableEq

/-- The freshly constructed store of NewWithEvict. -/
def initState (K V : Type) (maxSize : Int) : HashLRU K V :=
  { maxSize := maxSize, size := 0, oldCache := [], newCache := [] }

/-- NewWithEvict(maxSize, onEvict): none embeds the invalid-capacity
error return. -/
def NewWithEvict (K V : Type) (maxSize : Int) : Option (HashLRU K V) :=
  if maxSize ≤ 0 then none
  else some (initState K V maxSize)

/-- NewHLRU(maxSize) delegates to NewWithEvict with a nil callback. -/
def NewHLRU (K V : Type) (maxSize : Int) : Option (HashLRU K V) :=
  NewWithEvict K V maxSize

/-- The internal update method: insert into newCache, bump size, and
rotate (evicting all of oldCache) when size reaches maxSize. -/
def update (lru : HashLRU K V) (key : K) (value : V) :
    HashLRU K V × List (K × V) :=
  let nc := massign lru.newCache key value
  if lru.size + 1 ≥ lru.maxSize then
    ({ lru with size := 0, oldCache := nc, newCache := [] }, lru.oldCache)
  else
    ({ lru with size := lru.size + 1, newCache := nc }, [])

/-- Set(key, value): overwrite in place on a newCache hit, otherwise run
update. -/
def Set (lru : HashLRU K V) (key : K) (value : V) :
    HashLRU K V × List (K × V) :=
  if (mlookup lru.newCache key).isSome then
    ({ lru with newCache := massign lru.newCache key value }, [])
  else
    update lru key value

/-- Get(key): newCache hit returns directly; an oldCache hit is deleted
there and re-inserted through update (promotion, possibly rotating). -/
def Get (lru : HashLRU K V) (key : K) :
    HashLRU K V × Option V × List (K × V) :=
  match mlookup lru.newCache key with
  | some value => (lru, some value, [])
  | none =>
    match mlookup lru.oldCache key with
    | some value =>
      let r := update { lru with oldCache := mdelete lru.oldCache key } key value
      (r.1, some value, r.2)
    | none => (lru, none, [])

/-- Peek(key): lookup in newCache then oldCache, no mutation. -/
def Peek (lru : HashLRU K V) (key : K) : Option V :=
  match mlookup lru.newCache key with
  | some value => some value
  | none => mlookup lru.oldCache key

/-- Has(key): key present in either generation. -/
def Has (lru : HashLRU K V) (key : K) : Bool :=
  (mlookup lru.newCache key).isSome || (mlookup lru.oldCache key).isSome

/-- Remove(key): delete from newCache (decrementing size) or else from
oldCache; the removed pair is reported to the callback. -/
def Remove (lru : HashLRU K V) (key : K) :
    HashLRU K V × Bool × List (K × V) :=
  match mlookup lru.newCache key with
  | some val =>
    ({ lru with newCache := mdelete lru.newCache key, size := lru.size - 1 },
     true, [(key, val)])
  | none =>
    match mlookup lru.oldCache key with
    | some val =>
      ({ lru with oldCache := mdelete lru.oldCache key }, true, [(key, val)])
    | none => (lru, false, [])

/-- The oldCache entries whose key is not shadowed by newCache, in
oldCache order (the loop shared by Len, Keys, Vals and all). -/
def oldNotShadowed (lru : HashLRU K V) : List (K × V) :=
  lru.oldCache.filter (fun p => (mlookup lru.newCache p.1).isNone)

/-- Len(): size of oldCache when the fill counter is zero, otherwise the
fill counter plus the unshadowed oldCache count, clamped to maxSize. -/
def Len (lru : HashLRU K V) : Int :=
  if lru.size = 0 then
    (lru.oldCache.length : Int)
  else
    min (lru.size + ((oldNotShadowed lru).length : Int)) lru.maxSize

/-- Clear(): report every entry of oldCache then of newCache to the
callback and reset everything. -/
def Clear (lru : HashLRU K V) : HashLRU K V × List (K × V) :=
  ({ lru with oldCache := [], newCache := [], size := 0 },
   lru.oldCache ++ lru.newCache)

/-- Keys(): unshadowed oldCache keys followed by newCache keys. -/
def Keys (lru : HashLRU K V) : List K :=
  mkeys (oldNotShadowed lru) ++ mkeys lru.newCache

/-- Vals(): unshadowed oldCache values followed by newCache values. -/
def Vals (lru : HashLRU K V) : List V :=
  (oldNotShadowed lru).map Prod.snd ++ lru.newCache.map Prod.snd

/-- The internal all method: the deduplicated entry sequence, unshadowed
oldCache entries followed by newCache entries. -/
def all (lru : HashLRU K V) : List (K × V) :=
  oldNotShadowed lru ++ lru.newCache

/-- The merge loop of the grow branch of Resize: assign every oldCache
entry into newCache (so an oldCache value overwrites a newCache value on
a key conflict, in iteration order). -/
def mergeOldIntoNew (lru : HashLRU K V) : List (K × V) :=
  lru.oldCache.foldl (fun acc p => massign acc p.1 p.2) lru.newCache

/-- Resize(newSize): the result is (state, evicted count, callback
invocations, error flag); the flag true embeds the invalid-capacity
error return, on which the Go method returns before mutating. -/
def Resize (lru : HashLRU K V) (newSize : Int) :
    HashLRU K V × Int × List (K × V) × Bool :=
  if newSize ≤ 0 then
    (lru, 0, [], true)
  else
    let totalItems := Len lru
    let removeCount := totalItems - newSize
    if removeCount < 0 then
      ({ lru with newCache := mergeOldIntoNew lru, oldCache := [],
                  size := totalItems, maxSize := newSize }, 0, [], false)
    else
      let allPairs := all lru
      ({ lru with oldCache := allPairs.drop removeCount.toNat, newCache := [],
                  size := 0, maxSize := newSize },
       removeCount, allPairs.take removeCount.toNat, false)

/-- The public operations other than Resize, for reasoning about every
state reachable without a resize. -/
inductive Op (K V : Type) where
  | set (key : K) (value : V)
  | get (key : K)
  | peek (key : K)
  | has (key : K)
  | remove (key : K)
  | clear
  | len
  | keys
  | vals

/-- The state transition of one operation (the read-only operations
Peek, Has, Len, Keys and Vals leave the state unchanged). -/
def step (lru : HashLRU K V) : Op K V → HashLRU K V
  | Op.set k v => (Set lru k v).1
  | Op.get k => (Get lru k).1
  | Op.peek _ => lru
  | Op.has _ => lru
  | Op.remove k => (Remove lru k).1
  | Op.clear => (Clear lru).1
  | Op.len => lru
  | Op.keys => lru
  | Op.vals => lru

/-- Run a sequence of operations from a state. -/
def run (lru : HashLRU K V) : List (Op K V) → HashLRU K V
  | [] => lru
  | op :: rest => run (step lru op) rest

/-- The empty cache of capacity 2 over Nat keys and values, used for the
concrete executions below. -/
def st0 : HashLRU Nat Nat := initState Nat Nat 2

/-- The state reached by Set(0,10); Set(1,11); Set(2,12) from st0: the
second Set rotates, so oldCache = [(0,10),(1,11)], newCache = [(2,12)],
size = 1. -/
def threeKeyState : HashLRU Nat Nat :=
  (Set ((Set ((Set st0 0 10).1) 1 11).1) 2 12).1

/-- threeKeyState grown to capacity 5: Resize reads the clamped Len = 2
and stores it as the fill counter although newCache then holds 3 keys. -/
def grownState : HashLRU Nat Nat := (Resize threeKeyState 5).1

/-- grownState after removing the three keys of newCache: each Remove
decrements the fill counter, driving it to -1. -/
def drainedState : HashLRU Nat Nat :=
  (Remove ((Remove ((Remove grownState 0).1) 1).1) 2).1

/-- grownState after Set(3,13); Set(4,14); Set(5,15): the fill counter
reaches 5 and the rotation moves all 6 keys into oldCache. -/
def overfullState : HashLRU Nat Nat :=
  (Set ((Set ((Set grownState 3 13).1) 4 14).1) 5 15).1

/-- The state reached by Set(0,1); Set(1,2); Set(0,9) from st0: key 0 is
shadowed, oldCache = [(0,1),(1,2)], newCache = [(0,9)], size = 1. -/
def twoGenState : HashLRU Nat Nat :=
  (Set ((Set ((Set st0 0 1).1) 1 2).1) 0 9).1

/-- A sample operation sequence for the resize-free invariant. -/
def demoOps : List (Op Nat Nat) :=
  [Op.set 0 5, Op.set 1 6, Op.set 2 7, Op.get 0, Op.remove 1, Op.clear,
   Op.set 3 8]

theorem nodupKeys_nil : nodupKeys ([] : List (K × V)) := by
  simp [nodupKeys, mkeys]

theorem mlookup_massign_self (m : List (K × V)) (k : K) (v : V) :
    mlookup (massign m k v) k = some v := by
  induction m with
  | nil => simp [massign, mlookup]
  | cons p rest ih =>
    obtain ⟨a, b⟩ := p
    by_cases hak : a = k
    · simp [massign, mlookup, hak]
    · simp [massign, mlookup, hak, ih]

theorem mlookup_massign_ne (m : List (K × V)) (a k : K) (v : V) (h : a ≠ k) :
    mlookup (massign m k v) a = mlookup m a := by
  have hka : ¬(k = a) := fun hh => h hh.symm
  induction m with
  | nil => simp only [massign, mlookup, if_neg hka]
  | cons p rest ih =>
    obtain ⟨c, b⟩ := p
    by_cases hck : c = k
    · have hca : ¬(c = a) := fun hh => hka (by rw [← hck]; exact hh)
      simp only [massign, if_pos hck, mlookup, if_neg hka, if_neg hca]
    · by_cases hca : c = a
      · simp only [massign, if_neg hck, mlookup, if_pos hca]
      · simp only [massign, if_neg hck, mlookup, if_neg hca]
        exact ih

theorem mlookup_mdelete_self (m : List (K × V)) (k : K) :
    mlookup (mdelete m k) k = none := by
  induction m with
  | nil => simp [mdelete, mlookup]
  | cons p rest ih =>
    obtain ⟨a, b⟩ := p
    by_cases hak : a = k
    · simp [mdelete, hak, ih]
    · simp [mdelete, mlookup, hak, ih]

theorem mlookup_mdelete_ne (m : List (K × V)) (a k : K) (h : a ≠ k) :
    mlookup (mdelete m k) a = mlookup m a := by
  induction m with
  | nil => simp [mdelete]
  | cons p rest ih =>
    obtain ⟨c, b⟩ := p
    by_cases hck : c = k
    · have hca : ¬(c = a) := fun hh => h (by rw [← hh, hck])
      simp only [mdelete, if_pos hck, mlookup, if_neg hca]
      exact ih
    · by_cases hca : c = a
      · simp only [mdelete, if_neg hck, mlookup, if_pos hca]
      · simp only [mdelete, if_neg hck, mlookup, if_neg hca]
        exact ih

theorem mlookup_eq_none_iff (m : List (K × V)) (k : K) :
    mlookup m k = none ↔ k ∉ mkeys m := by
  induction m with
  | nil => simp [mlookup, mkeys]
  | cons p rest ih =>
    obtain ⟨a, b⟩ := p
    by_cases hak : a = k
    · subst hak
      simp [mlookup, mkeys]
    · have hka : ¬(k = a) := fun hh => hak hh.symm
      rw [mkeys, List.map_cons]
      simp only [mlookup, if_neg hak, List.mem_cons, not_or]
      rw [ih, mkeys]
      tauto

theorem mem_of_mlookup (m : List (K × V)) (k : K) (v : V)
    (h : mlookup m k = some v) : (k, v) ∈ m := by
  induction m with
  | nil => simp [mlookup] at h
  | cons p rest ih =>
    obtain ⟨a, b⟩ := p
    by_cases hak : a = k
    · subst hak
      simp [mlookup] at h
      simp [h]
    · simp only [mlookup, if_neg hak] at h
      exact List.mem_cons_of_mem _ (ih h)

theorem length_massign_present (m : List (K × V)) (k : K) (v : V)
    (h : (mlookup m k).isSome) : (massign m k v).length = m.length := by
  induction m with
  | nil => simp [mlookup] at h
  | cons p rest ih =>
    obtain ⟨a, b⟩ := p
    by_cases hak : a = k
    · simp [massign, hak]
    · simp only [mlookup, if_neg hak] at h
      simp [massign, hak, ih h]

theorem length_massign_absent (m : List (K × V)) (k : K) (v : V)
    (h : mlookup m k = none) : (massign m k v).length = m.length + 1 := by
  induction m with
  | nil => simp [massign]
  | cons p rest ih =>
    obtain ⟨a, b⟩ := p
    by_cases hak : a = k
    · simp [mlookup, hak] at h
    · simp only [mlookup, if_neg hak] at h
      simp [massign, hak, ih h]

theorem mkeys_massign_subset (m : List (K × V)) (k : K) (v : V) :
    mkeys (massign m k v) ⊆ k :: mkeys m := by
  induction m with
  | nil => simp [massign, mkeys]
  | cons p rest ih =>
    obtain ⟨a, b⟩ := p
    by_cases hak : a = k
    · rw [massign, if_pos hak]
      intro x hx
      rw [mkeys, List.map_cons, List.mem_cons] at hx
      rw [mkeys, List.map_cons, List.mem_cons, List.mem_cons]
      rcases hx with hx | hx
      · exact Or.inl hx
      · exact Or.inr (Or.inr hx)
    · rw [massign, if_neg hak]
      intro x hx
      rw [mkeys, List.map_cons, List.mem_cons] at hx
      rw [mkeys, List.map_cons, List.mem_cons, List.mem_cons]
      rcases hx with hx | hx
      · exact Or.inr (Or.inl hx)
      · rcases List.mem_cons.mp (ih hx) with hx2 | hx2
        · exact Or.inl hx2
        · exact Or.inr (Or.inr hx2)

theorem nodupKeys_massign (m : List (K × V)) (k : K) (v : V)
    (h : nodupKeys m) : nodupKeys (massign m k v) := by
  induction m with
  | nil => simp [massign, nodupKeys, mkeys]
  | cons p rest ih =>
    obtain ⟨a, b⟩ := p
    rw [nodupKeys, mkeys, List.map_cons, List.nodup_cons] at h
    by_cases hak : a = k
    · rw [nodupKeys, massign, if_pos hak, mkeys, List.map_cons,
        List.nodup_cons]
      constructor
      · rw [← hak]
        exact h.1
      · exact h.2
    · rw [nodupKeys, massign, if_neg hak, mkeys, List.map_cons,
        List.nodup_cons]
      refine ⟨?_, ih h.2⟩
      intro hmem
      rcases List.mem_cons.mp (mkeys_massign_subset rest k v hmem) with hx | hx
      · exact hak hx
      · exact h.1 hx

theorem mdelete_sublist (m : List (K × V)) (k : K) :
    (mdelete m k).Sublist m := by
  induction m with
  | nil => simp [mdelete]
  | cons p rest ih =>
    obtain ⟨a, b⟩ := p
    by_cases hak : a = k
    · rw [mdelete, if_pos hak]
      exact ih.cons (a, b)
    · rw [mdelete, if_neg hak]
      exact ih.cons₂ (a, b)

theorem nodupKeys_mdelete (m : List (K × V)) (k : K)
    (h : nodupKeys m) : nodupKeys (mdelete m k) := by
  exact List.Nodup.sublist (List.Sublist.map Prod.fst (mdelete_sublist m k)) h

theorem mdelete_of_not_mem (m : List (K × V)) (k : K)
    (h : k ∉ mkeys m) : mdelete m k = m := by
  induction m with
  | nil => simp [mdelete]
  | cons p rest ih =>
    obtain ⟨a, b⟩ := p
    rw [mkeys, List.map_cons, List.mem_cons] at h
    push_neg at h
    have hak : a ≠ k := fun hh => h.1 hh.symm
    simp [mdelete, hak, ih h.2]

theorem length_mdelete_present (m : List (K × V)) (k : K) (v : V)
    (hnd : nodupKeys m) (h : mlookup m k = some v) :
    (mdelete m k).length + 1 = m.length := by
  induction m with
  | nil => simp [mlookup] at h
  | cons p rest ih =>
    obtain ⟨a, b⟩ := p
    rw [nodupKeys, mkeys, List.map_cons, List.nodup_cons] at hnd
    by_cases hak : a = k
    · subst hak
      rw [mdelete, if_pos rfl, mdelete_of_not_mem rest a hnd.1]
      simp
    · simp only [mlookup, if_neg hak] at h
      simp [mdelete, hak, ih hnd.2 h]

theorem countP_key_eq_one (m : List (K × V)) (k : K) (v : V)
    (hnd : nodupKeys m) (h : mlookup m k = some v) :
    m.countP (fun p => decide (p.1 = k)) = 1 := by
  induction m with
  | nil => simp [mlookup] at h
  | cons p rest ih =>
    obtain ⟨a, b⟩ := p
    rw [nodupKeys, mkeys, List.map_cons, List.nodup_cons] at hnd
    rw [List.countP_cons]
    by_cases hak : a = k
    · subst hak
      have hz : rest.countP (fun p => decide (p.1 = a)) = 0 := by
        rw [List.countP_eq_zero]
        intro q hq hdec
        have hq1 : q.1 = a := of_decide_eq_true hdec
        have hq2 : q.1 ∈ List.map Prod.fst rest := List.mem_map_of_mem Prod.fst hq
        rw [hq1] at hq2
        exact hnd.1 hq2
      simp [hz]
    · simp only [mlookup, if_neg hak] at h
      simp [hak, ih hnd.2 h]

theorem mlookup_drop_of_mem_take (m : List (K × V)) (r : Nat) (k : K) (v : V)
    (hnd : nodupKeys m) (hmem : (k, v) ∈ m.take r) :
    mlookup (m.drop r) k = none := by
  rw [mlookup_eq_none_iff]
  intro hk
  have hsplit : mkeys m = mkeys (m.take r) ++ mkeys (m.drop r) := by
    rw [mkeys, mkeys, mkeys, ← List.map_append, List.take_append_drop]
  rw [nodupKeys, hsplit, List.nodup_append] at hnd
  exact hnd.2.2 (List.mem_map_of_mem Prod.fst hmem) hk

theorem nodupKeys_oldNotShadowed (lru : HashLRU K V)
    (h : nodupKeys lru.oldCache) : nodupKeys (oldNotShadowed lru) := by
  exact List.Nodup.sublist (List.Sublist.map Prod.fst (List.filter_sublist _)) h

theorem nodupKeys_all (lru : HashLRU K V)
    (hold : nodupKeys lru.oldCache) (hnew : nodupKeys lru.newCache) :
    nodupKeys (all lru) := by
  rw [nodupKeys, all, mkeys, List.map_append, List.nodup_append]
  refine ⟨nodupKeys_oldNotShadowed lru hold, hnew, ?_⟩
  intro x hx hx2
  rw [List.mem_map] at hx
  obtain ⟨p, hp, hpx⟩ := hx
  rw [oldNotShadowed, List.mem_filter] at hp
  have hnone : mlookup lru.newCache p.1 = none :=
    Option.isNone_iff_eq_none.mp hp.2
  rw [mlookup_eq_none_iff] at hnone
  exact hnone (hpx ▸ hx2)

/-- C1 (code-bug evaluation): after construction with capacity 2, the
operation sequence Set(0,10); Set(1,11); Set(2,12); Resize(5);
Remove(0); Remove(1); Remove(2) drives Len() to -1, and the sequence
Set(0,10); Set(1,11); Set(2,12); Resize(5); Set(3,13); Set(4,14);
Set(5,15) drives Len() to 6 while maxSize is 5 — so on reachable states
Len() can be both negative and above the current capacity. -/
theorem len_breaks_bounds_eval :
    Len drainedState = -1 ∧ drainedState.maxSize = 5
  ∧ Len overfullState = 6 ∧ overfullState.maxSize = 5 := by decide

/-- C3 (code-bug evaluation): twoGenState holds key 0 with recent value
9 and stale retiring value 1; growing to capacity 5 overwrites the
recent value with the stale one (Peek(0) drops from 9 to 1), and
resizing to exactly Len = 2 takes the shrink path (recent emptied into
retiring, fill counter 0) instead of merging retiring into recent. -/
theorem resize_grow_stale_value_eval :
    Peek twoGenState 0 = some 9 ∧ Len twoGenState = 2
  ∧ (Resize twoGenState 5).2.2.2 = false
  ∧ Peek (Resize twoGenState 5).1 0 = some 1
  ∧ (Resize twoGenState 2).1.newCache = []
  ∧ (Resize twoGenState 2).1.size = 0
  ∧ (Resize twoGenState 2).1.oldCache = [(1, 2), (0, 9)] := by decide

/-- C2 counterexample: threeKeyState has Len = 2; Resize(1) is a shrink
with 0 < 1 < 2 and returns eviction count 1, but it leaves 2 entries in
the new retiring generation, not newCapacity = 1 as the claim states. -/
theorem resize_shrink_overfull_retiring :
    (0 : Int) < 1 ∧ (1 : Int) < Len threeKeyState
  ∧ (Resize threeKeyState 1).2.1 = 1
  ∧ (Resize threeKeyState 1).2.2.1.length = 1
  ∧ (Resize threeKeyState 1).1.oldCache.length = 2
  ∧ ¬((Resize threeKeyState 1).1.oldCache.length = 1) := by decide

/-- C5 counterexample: in threeKeyState key 0 lives only in the
retiring generation; Get(0) promotes it but the promotion rotates, so
afterwards key 0 is absent from the recent generation (it sits in the
new retiring one, where Peek still finds it). -/
theorem get_promotion_rotation_counterexample :
    mlookup threeKeyState.newCache 0 = none
  ∧ mlookup threeKeyState.oldCache 0 = some 10
  ∧ (Get threeKeyState 0).2.1 = some 10
  ∧ mlookup (Get threeKeyState 0).1.newCache 0 = none
  ∧ Peek (Get threeKeyState 0).1 0 = some 10 := by decide

/-- C6 counterexample: Set(2,3) on twoGenState rotates and reports the
stale pair (0,1) to the eviction callback, yet key 0 is still present
afterwards (its recent copy moved into the new retiring generation),
although the operation only inserted key 2, not key 0. -/
theorem rotation_shadowed_key_survives :
    ((0 : Nat), (1 : Nat)) ∈ (Set twoGenState 2 3).2
  ∧ Has (Set twoGenState 2 3).1 0 = true
  ∧ (0 : Nat) ≠ 2 := by decide

/-- C8 counterexample: key 0 is present in both generations of
twoGenState; Remove(0) returns true and reports (0,9) to the callback,
but Has(0) is still true afterwards because the stale retiring entry
(0,1) remains. -/
theorem remove_shadowed_key_still_present :
    Has twoGenState 0 = true
  ∧ (Remove twoGenState 0).2.1 = true
  ∧ (Remove twoGenState 0).2.2 = [(0, 9)]
  ∧ Has (Remove twoGenState 0).1 0 = true := by decide

/-- C7: construction and Resize fail with the invalid-capacity error
exactly when the requested capacity is non-positive; NewHLRU delegates
to NewWithEvict; a successful construction yields the empty store; a
failing Resize returns count 0 and no callback invocations and leaves
the store unchanged; a positive capacity never yields the error. -/
theorem capacity_validation_spec (n : Int) (s : HashLRU K V) :
    ((NewWithEvict K V n).isSome ↔ 0 < n)
  ∧ NewHLRU K V n = NewWithEvict K V n
  ∧ (0 < n → NewWithEvict K V n = some (initState K V n))
  ∧ (n ≤ 0 → Resize s n = (s, 0, [], true))
  ∧ (0 < n → (Resize s n).2.2.2 = false) := by
  refine ⟨?_, rfl, ?_, ?_, ?_⟩
  · rw [NewWithEvict]
    constructor
    · intro h
      by_contra hc
      push_neg at hc
      rw [if_pos hc] at h
      simp at h
    · intro h
      rw [if_neg (by omega)]
      simp
  · intro h
    rw [NewWithEvict, if_neg (by omega)]
  · intro h
    rw [Resize, if_pos h]
  · intro h
    rw [Resize, if_neg (by omega)]
    dsimp only
    split <;> rfl

/-- C7 witness: capacity -3 is rejected without touching the store and
capacity 4 is accepted, at the concrete empty store of capacity 2. -/
theorem capacity_validation_spec_witness :
    Resize (initState Nat Nat 2) (-3) = (initState Nat Nat 2, 0, [], true)
  ∧ (Resize (initState Nat Nat 2) 4).2.2.2 = false
  ∧ NewWithEvict Nat Nat 4 = some (initState Nat Nat 4) :=
  ⟨(capacity_validation_spec (-3) (initState Nat Nat 2)).2.2.2.1 (by decide),
   (capacity_validation_spec 4 (initState Nat Nat 2)).2.2.2.2 (by decide),
   (capacity_validation_spec 4 (initState Nat Nat 2)).2.2.1 (by decide)⟩

/-- C2 (amended): for every state and every newCapacity with
0 < newCapacity < Len, Resize takes the shrink path: it returns
eviction count Len - newCapacity, reports exactly the first
Len - newCapacity entries of the deduplicated entry sequence to the
callback in iteration order, and the remaining entries of that sequence
(exactly newCapacity of them whenever Len equals the length of the
sequence) become the new retiring generation, with recent emptied, the
fill counter reset to 0 and capacity set to newCapacity. -/
theorem resize_shrink_spec (s : HashLRU K V) (n : Int)
    (h1 : 0 < n) (h2 : n < Len s) :
    Resize s n =
      ({ s with oldCache := (all s).drop (Len s - n).toNat,
                newCache := [], size := 0, maxSize := n },
       Len s - n, (all s).take (Len s - n).toNat, false) := by
  rw [Resize, if_neg (by omega)]
  dsimp only
  rw [if_neg (by omega)]

/-- C2 witness: the shrink of threeKeyState (Len = 2) to capacity 1. -/
theorem resize_shrink_spec_witness :
    Resize threeKeyState 1 =
      ({ threeKeyState with
           oldCache := (all threeKeyState).drop (Len threeKeyState - 1).toNat,
           newCache := [], size := 0, maxSize := 1 },
       Len threeKeyState - 1,
       (all threeKeyState).take (Len threeKeyState - 1).toNat, false) :=
  resize_shrink_spec threeKeyState 1 (by decide) (by decide)

/-- C4: assuming the reachable-state invariant size < maxSize, Set
overwrites in place on a recent hit (same fill counter, no rotation, no
callback); otherwise it inserts into recent and increments the counter,
rotating exactly when the counter thereby reaches capacity: every
retiring entry is reported to the callback, retiring becomes the
updated recent (by value), recent becomes empty and the counter 0. -/
theorem set_rotation_spec (s : HashLRU K V) (k : K) (v : V)
    (h : s.size < s.maxSize) :
    ((mlookup s.newCache k).isSome →
      Set s k v = ({ s with newCache := massign s.newCache k v }, []))
  ∧ (mlookup s.newCache k = none →
      (s.size + 1 = s.maxSize ∨ s.size + 1 < s.maxSize)
    ∧ (s.size + 1 = s.maxSize →
        Set s k v = ({ s with oldCache := massign s.newCache k v,
                              newCache := [], size := 0 }, s.oldCache))
    ∧ (s.size + 1 < s.maxSize →
        Set s k v = ({ s with newCache := massign s.newCache k v,
                              size := s.size + 1 }, []))) := by
  constructor
  · intro hk
    rw [Set, if_pos hk]
  · intro hk
    refine ⟨by omega, ?_, ?_⟩
    · intro heq
      rw [Set, if_neg (by simp [hk]), update]
      rw [if_pos (by omega)]
    · intro hlt
      rw [Set, if_neg (by simp [hk]), update]
      rw [if_neg (by omega)]

/-- C4 witness: an overwrite of the shadowed key 0 in twoGenState and a
rotating insertion of the fresh key 3 into threeKeyState. -/
theorem set_rotation_spec_witness :
    Set twoGenState 0 7 =
      ({ twoGenState with newCache := massign twoGenState.newCache 0 7 }, [])
  ∧ Set threeKeyState 3 13 =
      ({ threeKeyState with
           oldCache := massign threeKeyState.newCache 3 13,
           newCache := [], size := 0 }, threeKeyState.oldCache) :=
  ⟨(set_rotation_spec twoGenState 0 7 (by decide)).1 (by decide),
   ((set_rotation_spec threeKeyState 3 13 (by decide)).2 (by decide)).2.1
     (by decide)⟩

/-- C5 (amended): if a key exists only in the retiring generation, Get
returns its value and a subsequent Peek still returns it (Peek never
mutates in this embedding, so no further promotion happens); the key
lands in the recent generation when the promotion does not reach
capacity, and otherwise the promotion itself rotates, leaving the key
in the new retiring generation with recent empty. -/
theorem get_promotion_spec (s : HashLRU K V) (k : K) (v : V)
    (h1 : mlookup s.newCache k = none) (h2 : mlookup s.oldCache k = some v) :
    (Get s k).2.1 = some v
  ∧ Peek (Get s k).1 k = some v
  ∧ (s.size + 1 < s.maxSize → mlookup (Get s k).1.newCache k = some v)
  ∧ (s.size + 1 ≥ s.maxSize →
      (Get s k).1.newCache = [] ∧ mlookup (Get s k).1.oldCache k = some v) := by
  simp only [Get, h1, h2, update]
  by_cases hc : s.size + 1 ≥ s.maxSize
  · rw [if_pos hc]
    refine ⟨trivial, ?_, ?_, ?_⟩
    · rw [Peek]
      simp only [mlookup]
      exact mlookup_massign_self _ _ _
    · intro hlt
      omega
    · intro _
      exact ⟨rfl, mlookup_massign_self _ _ _⟩
  · rw [if_neg hc]
    refine ⟨trivial, ?_, ?_, ?_⟩
    · rw [Peek]
      simp only [mlookup_massign_self]
    · intro _
      exact mlookup_massign_self _ _ _
    · intro hge
      omega

/-- C5 witness: promoting key 0 of threeKeyState, where the promotion
reaches capacity 2 and rotates. -/
theorem get_promotion_spec_witness :
    (Get threeKeyState 0).2.1 = some 10
  ∧ Peek (Get threeKeyState 0).1 0 = some 10
  ∧ (threeKeyState.size + 1 < threeKeyState.maxSize →
      mlookup (Get threeKeyState 0).1.newCache 0 = some 10)
  ∧ (threeKeyState.size + 1 ≥ threeKeyState.maxSize →
      (Get threeKeyState 0).1.newCache = []
      ∧ mlookup (Get threeKeyState 0).1.oldCache 0 = some 10) :=
  get_promotion_spec threeKeyState 0 10 (by decide) (by decide)

/-- C8 (amended): Remove on an absent key returns false with no
callback invocation and leaves the state unchanged; Remove on a key
present in recent returns true with exactly one callback invocation
carrying the recent pair, and afterwards Has is the shadow status of
the key (false unless a stale copy remains in retiring); Remove on a
key present only in retiring returns true with exactly one callback
invocation, and afterwards Has is false. -/
theorem remove_spec (s : HashLRU K V) (k : K) :
    (mlookup s.newCache k = none → mlookup s.oldCache k = none →
      Remove s k = (s, false, []))
  ∧ (∀ v, mlookup s.newCache k = some v →
      (Remove s k).2.1 = true ∧ (Remove s k).2.2 = [(k, v)]
      ∧ Has (Remove s k).1 k = (mlookup s.oldCache k).isSome)
  ∧ (∀ v, mlookup s.newCache k = none → mlookup s.oldCache k = some v →
      (Remove s k).2.1 = true ∧ (Remove s k).2.2 = [(k, v)]
      ∧ Has (Remove s k).1 k = false) := by
  refine ⟨?_, ?_, ?_⟩
  · intro h1 h2
    simp only [Remove, h1, h2]
  · intro v hv
    simp only [Remove, hv]
    refine ⟨trivial, trivial, ?_⟩
    rw [Has]
    dsimp only
    rw [mlookup_mdelete_self]
    simp
  · intro v h1 h2
    simp only [Remove, h1, h2]
    refine ⟨trivial, trivial, ?_⟩
    rw [Has]
    dsimp only
    rw [h1, mlookup_mdelete_self]
    simp

/-- C8 witness: removing the shadowed key 0 of twoGenState, whose stale
retiring copy keeps Has true. -/
theorem remove_spec_witness :
    (Remove twoGenState 0).2.1 = true
  ∧ (Remove twoGenState 0).2.2 = [(0, 9)]
  ∧ Has (Remove twoGenState 0).1 0 = (mlookup twoGenState.oldCache 0).isSome :=
  (remove_spec twoGenState 0).2.1 9 (by decide)

/-- C10: when a key is present in both generations falling under a
non-nil callback, Clear reports it to the eviction callback exactly
twice: once with the stale retiring value and once with the
authoritative recent value. -/
theorem clear_shadowed_double_notification (s : HashLRU K V) (k : K)
    (v1 v2 : V) (hold : nodupKeys s.oldCache) (hnew : nodupKeys s.newCache)
    (h1 : mlookup s.oldCache k = some v1)
    (h2 : mlookup s.newCache k = some v2) :
    (k, v1) ∈ (Clear s).2 ∧ (k, v2) ∈ (Clear s).2
  ∧ (Clear s).2.countP (fun p => decide (p.1 = k)) = 2 := by
  refine ⟨?_, ?_, ?_⟩
  · show (k, v1) ∈ s.oldCache ++ s.newCache
    exact List.mem_append_left _ (mem_of_mlookup _ _ _ h1)
  · show (k, v2) ∈ s.oldCache ++ s.newCache
    exact List.mem_append_right _ (mem_of_mlookup _ _ _ h2)
  · show (s.oldCache ++ s.newCache).countP (fun p => decide (p.1 = k)) = 2
    rw [List.countP_append, countP_key_eq_one s.oldCache k v1 hold h1,
        countP_key_eq_one s.newCache k v2 hnew h2]

/-- C10 witness: clearing twoGenState reports key 0 twice, with the
stale value 1 and the recent value 9. -/
theorem clear_shadowed_double_notification_witness :
    ((0 : Nat), (1 : Nat)) ∈ (Clear twoGenState).2
  ∧ ((0 : Nat), (9 : Nat)) ∈ (Clear twoGenState).2
  ∧ (Clear twoGenState).2.countP (fun p => decide (p.1 = 0)) = 2 :=
  clear_shadowed_double_notification twoGenState 0 1 9 (by decide) (by decide)
    (by decide) (by decide)

/-- The resize-free reachable-state invariant: the fill counter equals
the number of newCache entries, both maps have distinct keys, and the
counter stays below capacity. -/
abbrev Inv (s : HashLRU K V) : Prop :=
  (s.newCache.length : Int) = s.size ∧ nodupKeys s.newCache
  ∧ nodupKeys s.oldCache ∧ s.size < s.maxSize

theorem update_cases (lru : HashLRU K V) (k : K) (v : V) :
    (lru.size + 1 ≥ lru.maxSize →
      update lru k v =
        ({ lru with size := 0, oldCache := massign lru.newCache k v,
                    newCache := [] }, lru.oldCache))
  ∧ (lru.size + 1 < lru.maxSize →
      update lru k v =
        ({ lru with size := lru.size + 1,
                    newCache := massign lru.newCache k v }, [])) := by
  constructor
  · intro h
    rw [update, if_pos h]
  · intro h
    rw [update, if_neg (by omega)]

theorem update_inv (s : HashLRU K V) (k : K) (v : V)
    (hs : Inv s) (hk : mlookup s.newCache k = none) :
    Inv (update s k v).1 := by
  obtain ⟨hlen, hndn, hndo, hlt⟩ := hs
  have h0 : (0 : Int) ≤ s.size := by
    rw [← hlen]
    exact_mod_cast Nat.zero_le _
  by_cases hc : s.size + 1 ≥ s.maxSize
  · rw [(update_cases s k v).1 hc]
    refine ⟨?_, nodupKeys_nil, nodupKeys_massign _ _ _ hndn, ?_⟩
    · show ((([] : List (K × V)).length : Int) = (0 : Int))
      simp
    · show (0 : Int) < s.maxSize
      omega
  · rw [(update_cases s k v).2 (show s.size + 1 < s.maxSize by omega)]
    refine ⟨?_, nodupKeys_massign _ _ _ hndn, hndo, ?_⟩
    · show ((massign s.newCache k v).length : Int) = s.size + 1
      rw [length_massign_absent _ _ _ hk]
      push_cast
      omega
    · show s.size + 1 < s.maxSize
      omega

theorem step_inv (s : HashLRU K V) (op : Op K V) (hs : Inv s) :
    Inv (step s op) := by
  obtain ⟨hlen, hndn, hndo, hlt⟩ := hs
  have h0 : (0 : Int) ≤ s.size := by
    rw [← hlen]
    exact_mod_cast Nat.zero_le _
  cases op with
  | set k v =>
    rw [step, Set]
    by_cases hk : (mlookup s.newCache k).isSome
    · rw [if_pos hk]
      refine ⟨?_, nodupKeys_massign _ _ _ hndn, hndo, hlt⟩
      show ((massign s.newCache k v).length : Int) = s.size
      rw [length_massign_present _ _ _ hk]
      exact hlen
    · rw [if_neg hk]
      exact update_inv s k v ⟨hlen, hndn, hndo, hlt⟩
        (Option.not_isSome_iff_eq_none.mp hk)
  | get k =>
    rw [step]
    cases hn : mlookup s.newCache k with
    | some v =>
      simp only [Get, hn]
      exact ⟨hlen, hndn, hndo, hlt⟩
    | none =>
      cases ho : mlookup s.oldCache k with
      | some v =>
        simp only [Get, hn, ho]
        exact update_inv { s with oldCache := mdelete s.oldCache k } k v
          ⟨hlen, hndn, nodupKeys_mdelete _ _ hndo, hlt⟩ hn
      | none =>
        simp only [Get, hn, ho]
        exact ⟨hlen, hndn, hndo, hlt⟩
  | peek k => exact ⟨hlen, hndn, hndo, hlt⟩
  | has k => exact ⟨hlen, hndn, hndo, hlt⟩
  | remove k =>
    rw [step]
    cases hn : mlookup s.newCache k with
    | some v =>
      simp only [Remove, hn]
      have hdl := length_mdelete_present s.newCache k v hndn hn
      have hdl2 : ((mdelete s.newCache k).length : Int) + 1
          = (s.newCache.length : Int) := by exact_mod_cast hdl
      refine ⟨?_, nodupKeys_mdelete _ _ hndn, hndo, ?_⟩
      · show ((mdelete s.newCache k).length : Int) = s.size - 1
        omega
      · show s.size - 1 < s.maxSize
        omega
    | none =>
      cases ho : mlookup s.oldCache k with
      | some v =>
        simp only [Remove, hn, ho]
        exact ⟨hlen, hndn, nodupKeys_mdelete _ _ hndo, hlt⟩
      | none =>
        simp only [Remove, hn, ho]
        exact ⟨hlen, hndn, hndo, hlt⟩
  | clear =>
    rw [step, Clear]
    refine ⟨?_, nodupKeys_nil, nodupKeys_nil, ?_⟩
    · show ((([] : List (K × V)).length : Int) = (0 : Int))
      simp
    · show (0 : Int) < s.maxSize
      omega
  | len => exact ⟨hlen, hndn, hndo, hlt⟩
  | keys => exact ⟨hlen, hndn, hndo, hlt⟩
  | vals => exact ⟨hlen, hndn, hndo, hlt⟩

theorem run_inv (s : HashLRU K V) (ops : List (Op K V)) (hs : Inv s) :
    Inv (run s ops) := by
  induction ops generalizing s with
  | nil => exact hs
  | cons op rest ih => exact ih _ (step_inv s op hs)

/-- C9: in every state reachable from construction with positive
capacity c by any sequence of Set, Get, Peek, Has, Remove, Clear, Len,
Keys and Vals operations (no Resize), the fill counter equals exactly
the number of entries of the recent generation, and it satisfies
0 ≤ fill counter < capacity. -/
theorem no_resize_size_invariant (c : Int) (hc : 0 < c)
    (ops : List (Op K V)) :
    ((run (initState K V c) ops).newCache.length : Int)
        = (run (initState K V c) ops).size
  ∧ 0 ≤ (run (initState K V c) ops).size
  ∧ (run (initState K V c) ops).size < (run (initState K V c) ops).maxSize := by
  have hinv : Inv (run (initState K V c) ops) := by
    refine run_inv _ _ ⟨?_, nodupKeys_nil, nodupKeys_nil, ?_⟩
    · show ((([] : List (K × V)).length : Int) = (0 : Int))
      simp
    · show (0 : Int) < c
      exact hc
  refine ⟨hinv.1, ?_, hinv.2.2.2⟩
  rw [← hinv.1]
  exact_mod_cast Nat.zero_le _

/-- C9 witness: a concrete resize-free operation sequence on a capacity
2 cache. -/
theorem no_resize_size_invariant_witness :
    ((run (initState Nat Nat 2) demoOps).newCache.length : Int)
        = (run (initState Nat Nat 2) demoOps).size
  ∧ 0 ≤ (run (initState Nat Nat 2) demoOps).size
  ∧ (run (initState Nat Nat 2) demoOps).size
      < (run (initState Nat Nat 2) demoOps).maxSize :=
  no_resize_size_invariant 2 (by decide) demoOps

/-- C6 (amended): a pair reported to the eviction callback is absent
from the cache when the operation finishes, unless the operation itself
re-inserted the key or the key was simultaneously present in the recent
generation (a shadowed key, whose surviving copy rotation and removal
do not discard). Set and Get report entries only on rotation and the
exceptions are the inserted or promoted key and shadowed keys; Remove
excepts keys present in both generations; Clear and shrink Resize admit
no exception. -/
theorem eviction_discard_spec (s : HashLRU K V)
    (hold : nodupKeys s.oldCache) (hnew : nodupKeys s.newCache)
    (k : K) (v : V) :
    (∀ a b, (k, v) ∈ (Set s a b).2 → mlookup s.newCache k = none → k ≠ a →
        Has (Set s a b).1 k = false)
  ∧ (∀ a, (k, v) ∈ (Get s a).2.2 → mlookup s.newCache k = none → k ≠ a →
        Has (Get s a).1 k = false)
  ∧ (∀ a, (k, v) ∈ (Remove s a).2.2 →
        (mlookup s.newCache k = none ∨ mlookup s.oldCache k = none) →
        Has (Remove s a).1 k = false)
  ∧ ((k, v) ∈ (Clear s).2 → Has (Clear s).1 k = false)
  ∧ (∀ n, (k, v) ∈ (Resize s n).2.2.1 → Has (Resize s n).1 k = false) := by
  refine ⟨?_, ?_, ?_, ?_, ?_⟩
  · intro a b hmem hk hne
    rw [Set] at hmem ⊢
    by_cases ha : (mlookup s.newCache a).isSome
    · rw [if_pos ha] at hmem
      simp at hmem
    · rw [if_neg ha] at hmem ⊢
      by_cases hc : s.size + 1 ≥ s.maxSize
      · rw [(update_cases s a b).1 hc] at hmem ⊢
        rw [Has]
        dsimp only
        rw [mlookup_massign_ne s.newCache k a b hne, hk]
        simp [mlookup]
      · rw [(update_cases s a b).2 (show s.size + 1 < s.maxSize by omega)] at hmem
        simp at hmem
  · intro a hmem hk hne
    cases hn : mlookup s.newCache a with
    | some w =>
      simp only [Get, hn] at hmem
      simp at hmem
    | none =>
      cases ho : mlookup s.oldCache a with
      | some w =>
        simp only [Get, hn, ho] at hmem ⊢
        by_cases hc : s.size + 1 ≥ s.maxSize
        · rw [(update_cases { s with oldCache := mdelete s.oldCache a } a w).1
            hc] at hmem ⊢
          rw [Has]
          dsimp only
          rw [mlookup_massign_ne s.newCache k a w hne, hk]
          simp [mlookup]
        · rw [(update_cases { s with oldCache := mdelete s.oldCache a } a w).2
            (show s.size + 1 < s.maxSize by omega)] at hmem
          simp at hmem
      | none =>
        simp only [Get, hn, ho] at hmem
        simp at hmem
  · intro a hmem hdisj
    cases hn : mlookup s.newCache a with
    | some w =>
      simp only [Remove, hn] at hmem ⊢
      simp only [List.mem_singleton, Prod.mk.injEq] at hmem
      obtain ⟨hka, -⟩ := hmem
      subst hka
      rcases hdisj with hd | hd
      · rw [hn] at hd
        cases hd
      · rw [Has]
        dsimp only
        rw [mlookup_mdelete_self, hd]
        simp
    | none =>
      cases ho : mlookup s.oldCache a with
      | some w =>
        simp only [Remove, hn, ho] at hmem ⊢
        simp only [List.mem_singleton, Prod.mk.injEq] at hmem
        obtain ⟨hka, -⟩ := hmem
        subst hka
        rw [Has]
        dsimp only
        rw [hn, mlookup_mdelete_self]
        simp
      | none =>
        simp only [Remove, hn, ho] at hmem
        simp at hmem
  · intro hmem
    simp [Has, Clear, mlookup]
  · intro n hmem
    rw [Resize] at hmem ⊢
    by_cases h0 : n ≤ 0
    · rw [if_pos h0] at hmem
      simp at hmem
    · rw [if_neg h0] at hmem ⊢
      dsimp only at hmem ⊢
      by_cases hrc : Len s - n < 0
      · rw [if_pos hrc] at hmem
        simp at hmem
      · rw [if_neg hrc] at hmem ⊢
        rw [Has]
        dsimp only
        rw [mlookup_drop_of_mem_take (all s) (Len s - n).toNat k v
          (nodupKeys_all s hold hnew) hmem]
        simp [mlookup]

/-- C6 witness: after Clear on twoGenState the reported pair (1,2) is
gone. -/
theorem eviction_discard_spec_witness :
    Has (Clear twoGenState).1 1 = false :=
  (eviction_discard_spec twoGenState (by decide) (by decide) 1 2).2.2.2.1
    (by decide)

end HLRU
